import Mathlib

/-
Verification of the streaming series-chunks loading pipeline of the
store-gateway (package `storegateway`, file with `seriesChunksSet` and the
loading / preloading iterators), together with the memcached cache adapter
(`dskit/cache/memcached.go`).

Go slices are modelled by the `Slice` structure below: `arr` is the
underlying array (its length is the slice capacity) and `len` is the slice
length; the visible part of the slice is `arr.take len`. Memory pools are
modelled as explicit state threaded through the functions, and the
observable side effects of releasing a set (invoking the chunks releaser,
returning the slab pool, returning the series slice to the pool) are
recorded as an explicit event trace.
-/

set_option autoImplicit false

namespace StoreGateway

/-- A Go slice: underlying array `arr` (whose length is the capacity) and
slice length `len`. A well-formed slice has `len ≤ arr.length`. -/
structure Slice (α : Type) where
  arr : List α
  len : Nat
  deriving Repr, DecidableEq

namespace Slice

variable {α : Type}

/-- Capacity of the slice: the size of the underlying array. -/
def cap (s : Slice α) : Nat :=
  s.arr.length

/-- The visible elements of the slice. -/
def view (s : Slice α) : List α :=
  s.arr.take s.len

/-- The nil / zero-value slice. -/
def nil : Slice α :=
  { arr := [], len := 0 }

/-- Go `make([]α, n, c)`: all elements are the zero value. -/
def make [Inhabited α] (n c : Nat) : Slice α :=
  { arr := List.replicate c default, len := n }

/-- Indexing `s[i]` (meaningful for `i < s.len` on well-formed slices). -/
def get [Inhabited α] (s : Slice α) (i : Nat) : α :=
  s.arr.getD i default

/-- In-place update `s[i] = v`. -/
def set (s : Slice α) (i : Nat) (v : α) : Slice α :=
  { s with arr := s.arr.set i v }

/-- Reslicing `s[:n]` (well-formed when `n ≤ s.cap`). -/
def resliceTo (s : Slice α) (n : Nat) : Slice α :=
  { s with len := n }

/-- Well-formedness: the slice length never exceeds the capacity. -/
def WF (s : Slice α) : Prop :=
  s.len ≤ s.arr.length

instance (s : Slice α) : Decidable s.WF := by
  unfold WF; infer_instance

@[simp] theorem cap_set (s : Slice α) (i : Nat) (v : α) : (s.set i v).cap = s.cap := by
  simp [cap, set]

@[simp] theorem len_set (s : Slice α) (i : Nat) (v : α) : (s.set i v).len = s.len := rfl

@[simp] theorem len_make [Inhabited α] (n c : Nat) : ((make n c : Slice α)).len = n := rfl

@[simp] theorem cap_make [Inhabited α] (n c : Nat) : ((make n c : Slice α)).cap = c := by
  simp [cap, make]

end Slice

/-- `l.getD` after `l.set` at the same (in-bounds) index. -/
theorem getD_set_self {α : Type} (l : List α) (i : Nat) (v d : α) (h : i < l.length) :
    (l.set i v).getD i d = v := by
  induction l generalizing i with
  | nil => simp at h
  | cons a as ih =>
    cases i with
    | zero => simp [List.set, List.getD]
    | succ n =>
      simp only [List.set, List.getD] at *
      exact ih n (by simpa using h)

/-- `l.getD` after `l.set` at a different index. -/
theorem getD_set_ne {α : Type} (l : List α) (i j : Nat) (v d : α) (h : i ≠ j) :
    (l.set i v).getD j d = l.getD j d := by
  induction l generalizing i j with
  | nil => simp [List.set]
  | cons a as ih =>
    cases i with
    | zero =>
      cases j with
      | zero => exact absurd rfl h
      | succ m => simp [List.set, List.getD]
    | succ n =>
      cases j with
      | zero => simp [List.set, List.getD]
      | succ m =>
        simp only [List.set, List.getD]
        exact ih n m (by intro hc; exact h (by rw [hc]))

/-- `getD` on `replicate`. -/
theorem getD_replicate {α : Type} (n i : Nat) (a d : α) (h : i < n) :
    (List.replicate n a).getD i d = a := by
  induction n generalizing i with
  | zero => simp at h
  | succ m ih =>
    cases i with
    | zero => simp [List.replicate, List.getD]
    | succ k =>
      simp only [List.replicate, List.getD]
      exact ih k (by simpa using h)

@[simp] theorem slice_get_set_self {α : Type} [Inhabited α] (s : Slice α) (i : Nat) (v : α)
    (h : i < s.cap) : (s.set i v).get i = v :=
  getD_set_self s.arr i v default h

theorem slice_get_set_ne {α : Type} [Inhabited α] (s : Slice α) (i j : Nat) (v : α)
    (h : i ≠ j) : (s.set i v).get j = s.get j :=
  getD_set_ne s.arr i j v default h

theorem slice_get_make {α : Type} [Inhabited α] (n c i : Nat) (h : i < c) :
    ((Slice.make n c : Slice α)).get i = default :=
  getD_replicate c i default default h

/-
Data model: labels, chunk references, aggregated chunks, series entries.
-/

/-- A label set (`labels.Labels`); the Go `nil` labels are `[]`. -/
abbrev Labels := List (String × String)

/-- `storepb.AggrChunk`: time bounds plus the raw chunk payload bytes. -/
structure AggrChunk where
  MinTime : Int
  MaxTime : Int
  Raw : List Nat
  deriving Repr, DecidableEq

instance : Inhabited AggrChunk :=
  ⟨{ MinTime := 0, MaxTime := 0, Raw := [] }⟩

/-- Protobuf `Reset()`: set the message to its zero value. -/
def AggrChunk.Reset (_c : AggrChunk) : AggrChunk :=
  default

/-- `seriesEntry`: a label set together with its chunks. -/
structure seriesEntry where
  lset : Labels
  chks : Slice AggrChunk
  deriving Repr, DecidableEq

instance : Inhabited seriesEntry :=
  ⟨{ lset := [], chks := Slice.nil }⟩

/-- A chunk reference produced by the reference stage. -/
structure chunkRef where
  blockID : Nat
  ref : Nat
  minTime : Int
  maxTime : Int
  deriving Repr, DecidableEq

instance : Inhabited chunkRef :=
  ⟨{ blockID := 0, ref := 0, minTime := 0, maxTime := 0 }⟩

/-- `seriesChunkRefs`: a series of the reference stage. -/
structure seriesChunkRefs where
  lset : Labels
  chunks : List chunkRef
  deriving Repr, DecidableEq

instance : Inhabited seriesChunkRefs :=
  ⟨{ lset := [], chunks := [] }⟩

/-- `seriesChunkRefsSet`: one reference batch. -/
structure seriesChunkRefsSet where
  series : List seriesChunkRefs
  deriving Repr, DecidableEq

instance : Inhabited seriesChunkRefsSet :=
  ⟨{ series := [] }⟩

def seriesChunkRefsSet.len (s : seriesChunkRefsSet) : Nat :=
  s.series.length

/-
Pools. The series-entry slice pool (`seriesEntrySlicePool`) is a stack of
slices; `Get` pops (returning `none` when empty, like the `sync.Pool` with
`New: nil`), `Put` pushes. The slab pool for `AggrChunk` slices is not part
of the sampled sources, so it is modelled from the spec.
-/

/-- State of `seriesEntrySlicePool`: the pooled series-entry slices. -/
abbrev EntryPool := List (Slice seriesEntry)

/-- Mimir compacts blocks up to 24h; with a 5s scrape interval and 120
samples per chunk there can be 144 chunks per series, so a slab of 1000
slots is a good trade-off. -/
def seriesChunksSlabSize : Nat := 1000

/-- Modelled from the spec: `pool.SlabPool[storepb.AggrChunk]` is not under
the sampled sources. The spec says the slab pool internally allocates
fixed-size slabs (slot count `slabSize`) and carves sub-slices of exactly
the requested length and capacity; the whole slabs are returned at once by
`Release`. We track the slab size and the number of slots handed out. -/
structure SlabPool where
  slabSize : Nat
  allocated : Nat
  deriving Repr, DecidableEq

/-- Modelled from the spec: carve a sub-slice of length and capacity
exactly `size` out of a slab; freshly carved slots hold the zero value
(slabs are returned with all their chunks reset). -/
def SlabPool.get (p : SlabPool) (size : Nat) : Slice AggrChunk × SlabPool :=
  ({ arr := List.replicate size default, len := size },
   { p with allocated := p.allocated + size })

/-
The pooled chunk-set.
-/

/-- Observable side effects of releasing sets: used to state where and in
which order releases happen. -/
inductive Event where
  | chunksReleaserInvoked
  | slabPoolReleased
  | seriesSlicePooled
  | refsReleased
  deriving Repr, DecidableEq

/-- `seriesChunksSet`: a set of series, each with its own chunks. The
`chunksReleaser` field is `true` when a releaser is attached (Go: the field
is non-nil). -/
structure seriesChunksSet where
  series : Slice seriesEntry
  seriesReleasable : Bool
  seriesChunksPool : Option SlabPool
  chunksReleaser : Bool
  deriving Repr, DecidableEq

/-- The Go zero value `seriesChunksSet{}`. -/
def seriesChunksSet.empty : seriesChunksSet :=
  { series := Slice.nil, seriesReleasable := false,
    seriesChunksPool := none, chunksReleaser := false }

instance : Inhabited seriesChunksSet :=
  ⟨seriesChunksSet.empty⟩

def seriesChunksSet.len (b : seriesChunksSet) : Nat :=
  b.series.len

/-- `newSeriesChunksSet(seriesCapacity, seriesReleasable)`: pre-allocates
the series slice with at least `seriesCapacity` capacity. If releasable, a
slice is reused from the pool; a pooled slice with insufficient capacity
is forgotten and a fresh slice is allocated instead. -/
def newSeriesChunksSet (seriesCapacity : Nat) (seriesReleasable : Bool) (pool : EntryPool) :
    seriesChunksSet × EntryPool :=
  let popped : Option (Slice seriesEntry) × EntryPool :=
    if seriesReleasable then
      match pool with
      | [] => (none, [])
      | reused :: rest =>
        -- The capacity MUST be guaranteed: a smaller slice is forgotten.
        if reused.cap < seriesCapacity then (none, rest) else (some reused, rest)
    else (none, pool)
  let prealloc : Slice seriesEntry :=
    match popped.1 with
    | none => Slice.make 0 seriesCapacity
    | some s => s
  ({ series := prealloc, seriesReleasable := seriesReleasable,
     seriesChunksPool := none, chunksReleaser := false }, popped.2)

/-- Zeroing pass of `release()`: for every in-range entry, reset each chunk
and then zero the whole entry (`b.series[i] = seriesEntry{}`). Entries of
the underlying array beyond the slice length are untouched. -/
def zeroSeriesArr (len : Nat) : Nat → List seriesEntry → List seriesEntry
  | _, [] => []
  | i, e :: es =>
    (if i < len then
      let _resetChks := (e.chks.arr.take e.chks.len).map AggrChunk.Reset
      (default : seriesEntry)
    else e) :: zeroSeriesArr len (i + 1) es

/-- `release()`: invoke the chunks releaser when present; when releasable,
reset and zero every series entry, return the slab pool when one was
created, and put the series slice truncated to length 0 back to the pool.
Returns the mutated set, the new pool state, and the event trace. -/
def seriesChunksSet.release (b : seriesChunksSet) (pool : EntryPool) :
    seriesChunksSet × EntryPool × List Event :=
  let evs := if b.chunksReleaser then [Event.chunksReleaserInvoked] else []
  if b.seriesReleasable then
    let zeroedArr := zeroSeriesArr b.series.len 0 b.series.arr
    let evs := evs ++ (if b.seriesChunksPool.isSome then [Event.slabPoolReleased] else [])
    let reuse : Slice seriesEntry := { arr := zeroedArr, len := 0 }
    ({ b with series := { arr := zeroedArr, len := b.series.len } },
     reuse :: pool, evs ++ [Event.seriesSlicePooled])
  else
    (b, pool, evs)

/-- `newSeriesAggrChunkSlice(size)`: a chunk slice of length and capacity
exactly `size`; carved from the lazily initialised slab pool when the set
is releasable, freshly allocated otherwise. -/
def seriesChunksSet.newSeriesAggrChunkSlice (b : seriesChunksSet) (size : Nat) :
    Slice AggrChunk × seriesChunksSet :=
  if !b.seriesReleasable then
    (Slice.make size size, b)
  else
    -- Lazy initialise the pool.
    let p : SlabPool :=
      match b.seriesChunksPool with
      | none => { slabSize := seriesChunksSlabSize, allocated := 0 }
      | some p => p
    let res := p.get size
    (res.1, { b with seriesChunksPool := some res.2 })

/-
The loading iterator (`loadingSeriesChunksSetIterator`).

The upstream reference iterator is modelled by its behaviour: the list of
batches it yields followed by its terminal error (`none` for normal
exhaustion). The `bucketChunkReaders` facility is not under the sampled
sources; its interface is taken from the call sites (`reset`, `addLoad`,
`load`) and, per the spec, `load` only fills the chunk payload bytes of
the registered `(seriesIndex, chunkIndex)` slots, leaving the time bounds
and slice shapes alone; we model that by letting `load` either fail or
return the bytes written into each slot. -/
structure RefsUpstream where
  batches : List seriesChunkRefsSet
  finalErr : Option String

/-- Modelled from the spec: the `bucketChunkReaders` facility (not under
the sampled sources). `ρ` is its internal state (the load plan);
`loadBytes` is the effect of `load`: on success, the payload written back
into the slot `(seriesIndex, chunkIndex)`. -/
structure BucketChunkReaders (ρ : Type) where
  reset : ρ → ρ
  addLoad : ρ → Nat → Nat → Nat → Nat → Except String ρ
  loadBytes : ρ → Except String (Nat → Nat → List Nat)

/-- State of `loadingSeriesChunksSetIterator`: position in the upstream,
the latched error, the current set, the readers state, and the
series-entry slice pool. -/
structure LoadingState (ρ : Type) where
  upIdx : Nat
  err : Option String
  current : seriesChunksSet
  readers : ρ
  pool : EntryPool

/-- `errors.Wrap(err, msg)`. -/
def wrapErr (msg e : String) : String :=
  msg ++ ": " ++ e

/-- Write the time bounds of one chunk reference into slot `j` of the
entry (`nextSet.series[i].chks[j].MinTime = chunk.minTime` and the
matching `MaxTime` assignment). -/
def entryStepTimes (chunk : chunkRef) (j : Nat) (e : seriesEntry) : seriesEntry :=
  let c := { e.chks.get j with MinTime := chunk.minTime, MaxTime := chunk.maxTime }
  { e with chks := e.chks.set j c }

/-- The inner loop over the chunk refs of one series: writes the time
bounds into `nextSet.series[i].chks[j]` and registers the load; stops at
the first `addLoad` error (carrying the state at that point). -/
def addLoadChunksLoop {ρ : Type} (R : BucketChunkReaders ρ) :
    List chunkRef → Nat → Nat → seriesChunksSet → ρ →
    Except (String × seriesChunksSet × ρ) (seriesChunksSet × ρ)
  | [], _, _, b, r => .ok (b, r)
  | chunk :: rest, i, j, b, r =>
    let b := { b with series := b.series.set i (entryStepTimes chunk j (b.series.get i)) }
    match R.addLoad r chunk.blockID chunk.ref i j with
    | .error err => .error (err, b, r)
    | .ok r => addLoadChunksLoop R rest i (j + 1) b r

/-- The outer loop over the upstream series: copies the label set by
reference, allocates the chunk slice from the set, and runs the inner
loop. -/
def populateLoop {ρ : Type} (R : BucketChunkReaders ρ) :
    List seriesChunkRefs → Nat → seriesChunksSet → ρ →
    Except (String × seriesChunksSet × ρ) (seriesChunksSet × ρ)
  | [], _, b, r => .ok (b, r)
  | s :: rest, i, b, r =>
    let b := { b with series := b.series.set i { b.series.get i with lset := s.lset } }
    let res := b.newSeriesAggrChunkSlice s.chunks.length
    let b := { res.2 with series := res.2.series.set i { res.2.series.get i with chks := res.1 } }
    match addLoadChunksLoop R s.chunks i 0 b r with
    | .error x => .error x
    | .ok (b, r) => populateLoop R rest (i + 1) b r

/-- The effect of `load`: write `f i j` into the `Raw` field of every
in-range slot `(i, j)` (every slot was registered by the loops above). -/
def applyLoadChunk (f : Nat → List Nat) (len : Nat) : Nat → List AggrChunk → List AggrChunk
  | _, [] => []
  | j, c :: cs => (if j < len then { c with Raw := f j } else c) :: applyLoadChunk f len (j + 1) cs

/-- The per-entry effect of `load`. -/
def applyLoadOne (g : Nat → List Nat) (e : seriesEntry) : seriesEntry :=
  { e with chks := { e.chks with arr := applyLoadChunk g e.chks.len 0 e.chks.arr } }

def applyLoadEntry (f : Nat → Nat → List Nat) (len : Nat) : Nat → List seriesEntry → List seriesEntry
  | _, [] => []
  | i, e :: es => (if i < len then applyLoadOne (f i) e else e) :: applyLoadEntry f len (i + 1) es

def applyLoad (f : Nat → Nat → List Nat) (b : seriesChunksSet) : seriesChunksSet :=
  { b with series := { b.series with arr := applyLoadEntry f b.series.len 0 b.series.arr } }

/-- `loadingSeriesChunksSetIterator.Next`: returns the new state, the
boolean result, and the trace of release events (the deferred error-path
release of the output set runs before the deferred release of the
reference set). -/
def loadingNext {ρ : Type} (R : BucketChunkReaders ρ) (up : RefsUpstream) (fromBatchSize : Nat)
    (st : LoadingState ρ) : LoadingState ρ × Bool × List Event :=
  if st.err.isSome then
    (st, false, [])
  else if st.upIdx < up.batches.length then
    let nextUnloaded := up.batches.getD st.upIdx default
    -- Pre-allocate using the expected batch size even if the batch is smaller.
    let res := newSeriesChunksSet (max fromBatchSize nextUnloaded.len) true st.pool
    let nextSet := res.1
    -- The capacity is guaranteed, so the slice can safely be expanded.
    let nextSet := { nextSet with series := nextSet.series.resliceTo nextUnloaded.len }
    let r := R.reset st.readers
    match populateLoop R nextUnloaded.series 0 nextSet r with
    | .error x =>
      let rel := x.2.1.release res.2
      let st := { st with upIdx := st.upIdx + 1, err := some (wrapErr "preloading chunks" x.1), readers := x.2.2, pool := rel.2.1 }
      (st, false, rel.2.2 ++ [Event.refsReleased])
    | .ok (nextSet, r) =>
      match R.loadBytes r with
      | .error e =>
        let rel := nextSet.release res.2
        let st := { st with upIdx := st.upIdx + 1, err := some (wrapErr "loading chunks" e), readers := r, pool := rel.2.1 }
        (st, false, rel.2.2 ++ [Event.refsReleased])
      | .ok f =>
        let nextSet := applyLoad f nextSet
        let nextSet := { nextSet with chunksReleaser := true }
        let st := { st with upIdx := st.upIdx + 1, current := nextSet, readers := r, pool := res.2 }
        (st, true, [Event.refsReleased])
  else
    -- Upstream exhausted: latch its error (possibly nil).
    ({ st with err := up.finalErr }, false, [])

/-- Iterated `Next` on the loading iterator (used to state exhaustion
idempotence). -/
def loadingNextN {ρ : Type} (R : BucketChunkReaders ρ) (up : RefsUpstream) (fromBatchSize : Nat) :
    Nat → LoadingState ρ → LoadingState ρ
  | 0, st => st
  | n + 1, st => (loadingNext R up fromBatchSize (loadingNextN R up fromBatchSize n st)).1

/-
The series adapter (`seriesChunksSeriesSet`): flattens chunk-set batches
into a series-at-a-time series set. Its upstream `seriesChunksSetIterator`
is modelled by the list of sets it will still yield.
-/

/-- State of `seriesChunksSeriesSet`: the sets the upstream will still
yield, the current set, the offset into it, and the series-entry slice
pool (release target). -/
structure SeriesSetState where
  upcoming : List seriesChunksSet
  currSet : seriesChunksSet
  currOffset : Nat
  pool : EntryPool
  deriving Repr, DecidableEq

/-- The state produced by `newSeriesChunksSeriesSet`: zero current set and
offset, arranged so the first `Next` advances to batch zero. -/
def newSeriesSetState (upcoming : List seriesChunksSet) (pool : EntryPool) : SeriesSetState :=
  { upcoming := upcoming, currSet := seriesChunksSet.empty, currOffset := 0, pool := pool }

/-- `seriesChunksSeriesSet.Next`: advance the offset; once the current set
is fully consumed, release it, pull the next set from the upstream (zeroing
the current set and returning false on exhaustion). -/
def seriesSetNext (st : SeriesSetState) : SeriesSetState × Bool × List Event :=
  let st := { st with currOffset := st.currOffset + 1 }
  if st.currOffset ≥ st.currSet.len then
    -- The current set will not be accessed anymore: release it.
    let rel := st.currSet.release st.pool
    let st := { st with pool := rel.2.1 }
    match st.upcoming with
    | [] => ({ st with currSet := seriesChunksSet.empty }, false, rel.2.2)
    | s :: rest =>
      ({ st with currSet := s, upcoming := rest, currOffset := 0 }, true, rel.2.2)
  else
    (st, true, [])

/-- `seriesChunksSeriesSet.At`: the current series, or `(nil, nil)` when
the offset is at or beyond the current set length. -/
def seriesSetAt (st : SeriesSetState) : Labels × Slice AggrChunk :=
  if st.currOffset ≥ st.currSet.len then
    ([], Slice.nil)
  else
    ((st.currSet.series.get st.currOffset).lset, (st.currSet.series.get st.currOffset).chks)

/-
The preloading iterator (`preloadingSetIterator`). The background
producer and the bounded channel are modelled functionally: `preloadStream`
is the FIFO sequence of payloads the producer sends before closing the
channel (the execution with no cancellation), and the consumer walks that
sequence. The channel capacity is recorded so the construction can be
stated.
-/

/-- `preloadedSeriesChunksSet`: either a preloaded set or an error. -/
structure Preloaded (Set : Type) where
  set : Set
  err : Option String
  deriving Repr, DecidableEq

/-- The payload sequence pushed by the producer `preload()`: one payload
per upstream set, then a final error payload only when the upstream
errored, then the channel is closed (end of list). -/
def preloadStream {Set : Type} [Inhabited Set] (batches : List Set) (upErr : Option String) :
    List (Preloaded Set) :=
  batches.map (fun s => { set := s, err := none }) ++
    match upErr with
    | some e => [{ set := default, err := some e }]
    | none => []

/-- Consumer state of `preloadingSetIterator`: the channel capacity, the
payloads still to be received (the channel is closed at the end of the
list), the current set and the latched error. -/
structure PreloadingState (Set : Type) where
  chanCapacity : Nat
  remaining : List (Preloaded Set)
  current : Set
  err : Option String
  deriving Repr, DecidableEq

/-- `newPreloadingSetIterator(ctx, preloadedSetsCount, from)`: makes the
channel with capacity `preloadedSetsCount - 1` (one set is kept outside
the channel by the consumer) and starts the producer. -/
def newPreloadingSetIterator {Set : Type} [Inhabited Set] (preloadedSetsCount : Nat)
    (batches : List Set) (upErr : Option String) : PreloadingState Set :=
  { chanCapacity := preloadedSetsCount - 1,
    remaining := preloadStream batches upErr,
    current := default, err := none }

/-- `preloadingSetIterator.Next`: receive from the channel; on close
return false leaving the state alone; otherwise install the payload and
return whether it carried no error. -/
def preloadingNext {Set : Type} (st : PreloadingState Set) : PreloadingState Set × Bool :=
  match st.remaining with
  | [] => (st, false)
  | p :: rest =>
    ({ st with remaining := rest, current := p.set, err := p.err }, p.err.isNone)

/-- `preloadingSetIterator.Err`. -/
def preloadingErr {Set : Type} (st : PreloadingState Set) : Option String :=
  st.err

/-- Iterated `Next` on the preloading iterator. -/
def preloadingNextN {Set : Type} : Nat → PreloadingState Set → PreloadingState Set
  | 0, st => st
  | n + 1, st => (preloadingNext (preloadingNextN n st)).1

/-
The cache adapter (`MemcachedCache` in `dskit/cache/memcached.go`).
-/

/-- Modelled from the spec: the `RemoteCacheClient` (its implementation is
not under the sampled sources). `getMultiRaw` is the underlying transport
round-trip; per the spec the client's `GetMulti` returns only the cache
hits and converts any transport error into an empty result. -/
structure RemoteCacheClient where
  getMultiRaw : List String → Except String (List (String × List Nat))

/-- Modelled from the spec: `GetMulti` returns only hits; on any transport
error it returns the empty map (miss-all semantics). -/
def RemoteCacheClient.GetMulti (c : RemoteCacheClient) (keys : List String) :
    List (String × List Nat) :=
  match c.getMultiRaw keys with
  | .ok hits => hits
  | .error _ => []

/-- `MemcachedCache`: name plus the two counters. -/
structure MemcachedCache where
  name : String
  requests : Nat
  hits : Nat
  deriving Repr, DecidableEq

/-- `MemcachedCache.Fetch`: count the requested keys, do the single
multi-get, count the hits, and return them. The function is total: no
error is ever propagated to the caller. -/
def MemcachedCache.Fetch (c : MemcachedCache) (client : RemoteCacheClient)
    (keys : List String) : MemcachedCache × List (String × List Nat) :=
  let c := { c with requests := c.requests + keys.length }
  let results := client.GetMulti keys
  let c := { c with hits := c.hits + results.length }
  (c, results)

/-
Supporting lemmas.
-/

theorem set_getD_self {α : Type} (l : List α) (i : Nat) (d : α) (h : i < l.length) :
    l.set i (l.getD i d) = l := by
  induction l generalizing i with
  | nil => rfl
  | cons a as ih =>
    cases i with
    | zero => rfl
    | succ n => simpa [List.set, List.getD] using ih n (by simpa using h)

theorem slice_set_get_self {α : Type} [Inhabited α] (s : Slice α) (i : Nat)
    (h : i < s.arr.length) : s.set i (s.get i) = s := by
  have h2 := set_getD_self s.arr i (default : α) h
  cases s
  simp only [Slice.set, Slice.get] at *
  rw [h2]

theorem slice_set_set {α : Type} (s : Slice α) (i : Nat) (v w : α) :
    (s.set i v).set i w = s.set i w := by
  cases s
  simp [Slice.set, List.set_set]

/-- Lengths through the zeroing pass of `release()`. -/
theorem zeroSeriesArr_length (len : Nat) :
    ∀ (i : Nat) (arr : List seriesEntry), (zeroSeriesArr len i arr).length = arr.length := by
  intro i arr
  induction arr generalizing i with
  | nil => rfl
  | cons e es ih => simp [zeroSeriesArr, ih]

/-- Every in-range entry is the zero entry after the zeroing pass. -/
theorem zeroSeriesArr_getD (len : Nat) :
    ∀ (i k : Nat) (arr : List seriesEntry), k < arr.length → i + k < len →
      (zeroSeriesArr len i arr).getD k default = default := by
  intro i k arr
  induction arr generalizing i k with
  | nil => intro h; simp at h
  | cons e es ih =>
    intro hk hlen
    cases k with
    | zero =>
      have : i < len := by omega
      simp [zeroSeriesArr, List.getD, this]
    | succ m =>
      have h1 : m < es.length := by simpa using hk
      have h2 : (i + 1) + m < len := by omega
      simpa [zeroSeriesArr, List.getD] using ih (i + 1) m h1 h2

/-
C5 theorem and witness.
-/

/-- C5: for every `seriesCapacity` and `releasable` flag (and any pool
whose slices were stored truncated to length 0, as `release()` stores
them), `newSeriesChunksSet` returns a set whose series slice has length 0
and capacity at least `seriesCapacity`; when releasable, a pooled slice of
insufficient capacity is discarded and replaced by a fresh allocation of
capacity exactly `seriesCapacity`, never re-grown. -/
theorem newSeriesChunksSet_capacity (seriesCapacity : Nat) (seriesReleasable : Bool)
    (pool : EntryPool) (hpool : ∀ s ∈ pool, s.len = 0) :
    (newSeriesChunksSet seriesCapacity seriesReleasable pool).1.series.len = 0 ∧
    seriesCapacity ≤ (newSeriesChunksSet seriesCapacity seriesReleasable pool).1.series.cap ∧
    (∀ reused rest, pool = reused :: rest → seriesReleasable = true →
      reused.cap < seriesCapacity →
      (newSeriesChunksSet seriesCapacity seriesReleasable pool).1.series =
        Slice.make 0 seriesCapacity) := by
  cases seriesReleasable with
  | false =>
    refine ⟨rfl, by simp [newSeriesChunksSet], ?_⟩
    intro _ _ _ h
    exact absurd h (by simp)
  | true =>
    cases pool with
    | nil => exact ⟨rfl, by simp [newSeriesChunksSet], by intro _ _ h _ _; simp at h⟩
    | cons reused rest =>
      by_cases hcap : reused.cap < seriesCapacity
      · refine ⟨?_, ?_, ?_⟩
        · simp [newSeriesChunksSet, hcap]
        · simp [newSeriesChunksSet, hcap]
        · intro r1 r2 heq _ _
          simp [newSeriesChunksSet, hcap]
      · refine ⟨?_, ?_, ?_⟩
        · have h0 : reused.len = 0 := hpool reused (by simp)
          simp [newSeriesChunksSet, hcap, h0]
        · simp only [newSeriesChunksSet, hcap]
          simpa using Nat.le_of_not_lt hcap
        · intro r1 r2 heq _ hlt
          cases heq
          exact absurd hlt hcap

/-- Witness for C5 at a concrete input: a pooled slice of capacity 1 is
discarded when capacity 3 is requested. -/
theorem newSeriesChunksSet_capacity_witness :
    (newSeriesChunksSet 3 true [{ arr := [default], len := 0 }]).1.series.len = 0 ∧
    3 ≤ (newSeriesChunksSet 3 true [{ arr := [default], len := 0 }]).1.series.cap ∧
    (newSeriesChunksSet 3 true [{ arr := [default], len := 0 }]).1.series =
      Slice.make 0 3 := by
  have h := newSeriesChunksSet_capacity 3 true [{ arr := [default], len := 0 }]
    (by intro s hs; simp at hs; rw [hs])
  exact ⟨h.1, h.2.1, h.2.2 { arr := [default], len := 0 } [] rfl rfl (by simp [Slice.cap])⟩

/-
C6 theorem and witness.
-/

/-- C6: `newSeriesAggrChunkSlice(n)` returns a slice of length and
capacity exactly `n`; when the set is releasable the slice is carved from
a slab pool (slab size 1000) lazily created on first use and bound to the
set; when not releasable a fresh allocation is returned and no pool is
touched. -/
theorem newSeriesAggrChunkSlice_exact (b : seriesChunksSet) (size : Nat) :
    (b.newSeriesAggrChunkSlice size).1.len = size ∧
    (b.newSeriesAggrChunkSlice size).1.cap = size ∧
    (b.seriesReleasable = true → b.seriesChunksPool = none →
      (b.newSeriesAggrChunkSlice size).2.seriesChunksPool =
        some { slabSize := seriesChunksSlabSize, allocated := size }) ∧
    (b.seriesReleasable = true → ∀ p, b.seriesChunksPool = some p →
      (b.newSeriesAggrChunkSlice size).2.seriesChunksPool =
        some { p with allocated := p.allocated + size }) ∧
    (b.seriesReleasable = false →
      (b.newSeriesAggrChunkSlice size).1 = Slice.make size size ∧
      (b.newSeriesAggrChunkSlice size).2 = b) := by
  cases hrel : b.seriesReleasable with
  | false =>
    refine ⟨?_, ?_, ?_, ?_, fun _ => ⟨?_, ?_⟩⟩
    · simp [seriesChunksSet.newSeriesAggrChunkSlice, hrel]
    · simp [seriesChunksSet.newSeriesAggrChunkSlice, hrel, Slice.cap, Slice.make]
    · intro h; simp at h
    · intro h; simp at h
    · simp [seriesChunksSet.newSeriesAggrChunkSlice, hrel]
    · simp [seriesChunksSet.newSeriesAggrChunkSlice, hrel]
  | true =>
    cases hp : b.seriesChunksPool with
    | none =>
      refine ⟨?_, ?_, ?_, ?_, ?_⟩
      · simp [seriesChunksSet.newSeriesAggrChunkSlice, hrel, hp, SlabPool.get]
      · simp [seriesChunksSet.newSeriesAggrChunkSlice, hrel, hp, SlabPool.get, Slice.cap]
      · intro _ _; simp [seriesChunksSet.newSeriesAggrChunkSlice, hrel, hp, SlabPool.get]
      · intro _ p hps; simp at hps
      · intro h; simp at h
    | some p =>
      refine ⟨?_, ?_, ?_, ?_, ?_⟩
      · simp [seriesChunksSet.newSeriesAggrChunkSlice, hrel, hp, SlabPool.get]
      · simp [seriesChunksSet.newSeriesAggrChunkSlice, hrel, hp, SlabPool.get, Slice.cap]
      · intro _ hn; simp at hn
      · intro _ q hq
        have hq2 : p = q := by injection hq
        subst hq2
        simp [seriesChunksSet.newSeriesAggrChunkSlice, hrel, hp, SlabPool.get]
      · intro h; simp at h

/-- Witness for C6 at a concrete input: a releasable set with no pool yet,
asking for 2 chunk slots. -/
theorem newSeriesAggrChunkSlice_exact_witness :
    (seriesChunksSet.newSeriesAggrChunkSlice
      { series := Slice.nil, seriesReleasable := true,
        seriesChunksPool := none, chunksReleaser := false } 2).1.len = 2 ∧
    (seriesChunksSet.newSeriesAggrChunkSlice
      { series := Slice.nil, seriesReleasable := true,
        seriesChunksPool := none, chunksReleaser := false } 2).2.seriesChunksPool =
      some { slabSize := seriesChunksSlabSize, allocated := 2 } := by
  have h := newSeriesAggrChunkSlice_exact
    { series := Slice.nil, seriesReleasable := true,
      seriesChunksPool := none, chunksReleaser := false } 2
  exact ⟨h.1, h.2.2.1 rfl rfl⟩

/-
C7 theorem and witness.
-/

/-- C7: `release()` first invokes the chunks releaser when present; then,
only when the set is releasable, it zeroes every in-range series entry
(resetting its chunks, since the zero entry holds no chunks), returns the
slab pool when one was created, and returns the series slice truncated to
length 0 but keeping its capacity to the series-slice pool — in exactly
that order. When not releasable nothing else happens. After release the
series content is logically empty: every in-range entry is the zero
entry. -/
theorem release_order (b : seriesChunksSet) (pool : EntryPool) :
    (b.release pool).2.2 =
      (if b.chunksReleaser then [Event.chunksReleaserInvoked] else []) ++
      (if b.seriesReleasable then
        (if b.seriesChunksPool.isSome then [Event.slabPoolReleased] else []) ++
          [Event.seriesSlicePooled]
       else []) ∧
    (b.seriesReleasable = true →
      (∃ reuse, (b.release pool).2.1 = reuse :: pool ∧ reuse.len = 0 ∧
        reuse.cap = b.series.cap) ∧
      (b.release pool).1.series.len = b.series.len ∧
      (b.release pool).1.series.cap = b.series.cap ∧
      (∀ i, i < b.series.len → (b.release pool).1.series.get i = default)) ∧
    (b.seriesReleasable = false → (b.release pool).2.1 = pool ∧ (b.release pool).1 = b) := by
  cases hrel : b.seriesReleasable with
  | false =>
    refine ⟨by simp [seriesChunksSet.release, hrel], ?_, ?_⟩
    · intro h; cases h
    · intro _; exact ⟨by simp [seriesChunksSet.release, hrel], by simp [seriesChunksSet.release, hrel]⟩
  | true =>
    refine ⟨by simp [seriesChunksSet.release, hrel], ?_, ?_⟩
    · intro _
      refine ⟨⟨{ arr := zeroSeriesArr b.series.len 0 b.series.arr, len := 0 }, ?_, rfl, ?_⟩, ?_, ?_, ?_⟩
      · simp [seriesChunksSet.release, hrel]
      · simp [Slice.cap, zeroSeriesArr_length]
      · simp [seriesChunksSet.release, hrel]
      · simp [seriesChunksSet.release, hrel, Slice.cap, zeroSeriesArr_length]
      · intro i hi
        simp only [seriesChunksSet.release, hrel, if_true]
        by_cases hbound : i < b.series.arr.length
        · exact zeroSeriesArr_getD b.series.len 0 i b.series.arr hbound (by omega)
        · exact List.getD_eq_default _ _ (by rw [zeroSeriesArr_length]; omega)
    · intro h; simp at h

/-- Witness for C7 at a concrete input: a releasable set with one series
entry, an initialised slab pool and an attached chunks releaser. -/
theorem release_order_witness :
    ((seriesChunksSet.release
      { series := { arr := [{ lset := [("a", "1")], chks := Slice.make 1 1 }], len := 1 },
        seriesReleasable := true,
        seriesChunksPool := some { slabSize := 1000, allocated := 1 },
        chunksReleaser := true } []).2.2 =
      [Event.chunksReleaserInvoked, Event.slabPoolReleased, Event.seriesSlicePooled]) ∧
    ((seriesChunksSet.release
      { series := { arr := [{ lset := [("a", "1")], chks := Slice.make 1 1 }], len := 1 },
        seriesReleasable := true,
        seriesChunksPool := some { slabSize := 1000, allocated := 1 },
        chunksReleaser := true } []).1.series.get 0 = default) := by
  have h := release_order
    { series := { arr := [{ lset := [("a", "1")], chks := Slice.make 1 1 }], len := 1 },
      seriesReleasable := true,
      seriesChunksPool := some { slabSize := 1000, allocated := 1 },
      chunksReleaser := true } []
  exact ⟨by simpa using h.1, (h.2.1 rfl).2.2.2 0 (by decide)⟩

/-
C8 theorem and witness.
-/

/-- C8: `Fetch` increments the requests counter by exactly the number of
keys and the hits counter by exactly the size of the returned map; the
returned map is exactly the hits delivered by the client when the
round-trip succeeds, and the empty map when the transport errors — the
call itself never propagates a failure (it is a total function into a
plain result map). -/
theorem fetch_counters (c : MemcachedCache) (client : RemoteCacheClient)
    (keys : List String) :
    (c.Fetch client keys).1.requests = c.requests + keys.length ∧
    (c.Fetch client keys).1.hits = c.hits + (c.Fetch client keys).2.length ∧
    (∀ hits, client.getMultiRaw keys = .ok hits → (c.Fetch client keys).2 = hits) ∧
    (∀ e, client.getMultiRaw keys = .error e → (c.Fetch client keys).2 = []) ∧
    (c.Fetch client keys).1.name = c.name := by
  refine ⟨rfl, rfl, ?_, ?_, rfl⟩
  · intro hits h
    simp [MemcachedCache.Fetch, RemoteCacheClient.GetMulti, h]
  · intro e h
    simp [MemcachedCache.Fetch, RemoteCacheClient.GetMulti, h]

/-- Witness for C8 at a concrete input: two keys, a client that errors. -/
theorem fetch_counters_witness :
    (MemcachedCache.Fetch { name := "chunks", requests := 5, hits := 2 }
      { getMultiRaw := fun _ => .error "conn refused" } ["k1", "k2"]).1.requests = 7 ∧
    (MemcachedCache.Fetch { name := "chunks", requests := 5, hits := 2 }
      { getMultiRaw := fun _ => .error "conn refused" } ["k1", "k2"]).2 = [] := by
  have h := fetch_counters { name := "chunks", requests := 5, hits := 2 }
    { getMultiRaw := fun _ => .error "conn refused" } ["k1", "k2"]
  exact ⟨h.1, h.2.2.2.1 "conn refused" rfl⟩

/-
C10 theorem and witness.
-/

/-- On a well-formed slice, `view[i]?` is the guarded version of `get`. -/
theorem slice_view_lookup {α : Type} [Inhabited α] (s : Slice α) (h : s.WF) (i : Nat) :
    s.view[i]? = if i < s.len then some (s.get i) else none := by
  unfold Slice.view
  rw [List.getElem?_take]
  by_cases hi : i < s.len
  · simp only [hi, if_true]
    have hb : i < s.arr.length := lt_of_lt_of_le hi h
    rw [List.getElem?_eq_getElem hb]
    simp [Slice.get, List.getD_eq_getElem?_getD, List.getElem?_eq_getElem hb]
  · simp [hi]

/-- C10: the series adapter's `At` is the guarded lookup: whenever the
offset is at or beyond the current set length it returns the nil pair
instead of indexing out of range, it agrees with the partial lookup into
the visible series everywhere, and in particular it returns the nil pair
in the initial state (before the first successful `Next`) and after
`Next` has returned false. -/
theorem seriesSetAt_guarded (st : SeriesSetState) (hwf : st.currSet.series.WF) :
    (st.currSet.len ≤ st.currOffset → seriesSetAt st = ([], Slice.nil)) ∧
    (seriesSetAt st =
      (st.currSet.series.view[st.currOffset]?.elim ([], Slice.nil)
        (fun e => (e.lset, e.chks)))) ∧
    (∀ (up : List seriesChunksSet) (pool : EntryPool),
      seriesSetAt (newSeriesSetState up pool) = ([], Slice.nil)) ∧
    (∀ (st1 st2 : SeriesSetState) (evs : List Event),
      seriesSetNext st1 = (st2, false, evs) → seriesSetAt st2 = ([], Slice.nil)) := by
  refine ⟨?_, ?_, ?_, ?_⟩
  · intro h
    simp [seriesSetAt, h]
  · rw [slice_view_lookup _ hwf]
    by_cases hi : st.currOffset < st.currSet.series.len
    · have hn : ¬ st.currSet.series.len ≤ st.currOffset := by omega
      simp [seriesSetAt, seriesChunksSet.len, hi, hn]
    · have hy : st.currSet.series.len ≤ st.currOffset := by omega
      simp [seriesSetAt, seriesChunksSet.len, hi, hy]
  · intro up pool
    rfl
  · intro st1 st2 evs h
    simp only [seriesSetNext] at h
    by_cases hg : st1.currOffset + 1 ≥ st1.currSet.len
    · simp only [hg, if_true] at h
      cases hup : st1.upcoming with
      | nil =>
        rw [hup] at h
        simp only at h
        have h2 := congrArg (fun x => x.1) h
        simp only at h2
        rw [← h2]
        simp [seriesSetAt, seriesChunksSet.empty, seriesChunksSet.len, Slice.nil]
      | cons s rest =>
        rw [hup] at h
        simp only at h
        have := congrArg (fun x => x.2.1) h
        simp at this
    · simp only [hg, if_false] at h
      have := congrArg (fun x => x.2.1) h
      simp at this

/-- Witness for C10 at a concrete input: a state whose offset sits past a
one-entry current set. -/
theorem seriesSetAt_guarded_witness :
    seriesSetAt
      { upcoming := [],
        currSet := { series := { arr := [default], len := 1 }, seriesReleasable := true,
                     seriesChunksPool := none, chunksReleaser := false },
        currOffset := 1, pool := [] } = ([], Slice.nil) := by
  exact (seriesSetAt_guarded
    { upcoming := [],
      currSet := { series := { arr := [default], len := 1 }, seriesReleasable := true,
                   seriesChunksPool := none, chunksReleaser := false },
      currOffset := 1, pool := [] } (by decide)).1 (by decide)

/-
C3 theorem and witness.
-/

/-- C3: the series adapter's `Next` increments the offset; while the
incremented offset is still inside the current set nothing else happens
(no release: this branch emits no events) and `Next` returns true; once it
reaches or passes the set length, the current set is released (exactly
here), the upstream is advanced; if the upstream is exhausted the current
set becomes the empty zero set and `Next` returns false, otherwise the new
set is installed with offset 0 and `Next` returns true. -/
theorem seriesSet_next_semantics (st : SeriesSetState) :
    (st.currOffset + 1 < st.currSet.len →
      seriesSetNext st = ({ st with currOffset := st.currOffset + 1 }, true, [])) ∧
    (st.currSet.len ≤ st.currOffset + 1 →
      ((seriesSetNext st).1.pool = (st.currSet.release st.pool).2.1 ∧
       (seriesSetNext st).2.2 = (st.currSet.release st.pool).2.2) ∧
      (st.upcoming = [] →
        (seriesSetNext st).1.currSet = seriesChunksSet.empty ∧
        (seriesSetNext st).2.1 = false) ∧
      (∀ s rest, st.upcoming = s :: rest →
        (seriesSetNext st).1.currSet = s ∧ (seriesSetNext st).1.currOffset = 0 ∧
        (seriesSetNext st).1.upcoming = rest ∧ (seriesSetNext st).2.1 = true)) := by
  constructor
  · intro h
    have hg : ¬ st.currOffset + 1 ≥ st.currSet.len := by omega
    simp [seriesSetNext, hg]
  · intro h
    have hg : st.currOffset + 1 ≥ st.currSet.len := h
    refine ⟨?_, ?_, ?_⟩
    · cases hup : st.upcoming with
      | nil => constructor <;> simp [seriesSetNext, hg, hup]
      | cons s rest => constructor <;> simp [seriesSetNext, hg, hup]
    · intro hup
      constructor <;> simp [seriesSetNext, hg, hup]
    · intro s rest hup
      refine ⟨?_, ?_, ?_, ?_⟩ <;> simp [seriesSetNext, hg, hup]

/-- Witness for C3 at a concrete input: a fully consumed one-entry set
with one more set upcoming. -/
theorem seriesSet_next_semantics_witness :
    (seriesSetNext
      { upcoming := [seriesChunksSet.empty],
        currSet := { series := { arr := [default], len := 1 }, seriesReleasable := false,
                     seriesChunksPool := none, chunksReleaser := false },
        currOffset := 0, pool := [] }).1.currOffset = 0 ∧
    (seriesSetNext
      { upcoming := [seriesChunksSet.empty],
        currSet := { series := { arr := [default], len := 1 }, seriesReleasable := false,
                     seriesChunksPool := none, chunksReleaser := false },
        currOffset := 0, pool := [] }).2.1 = true := by
  have h := (seriesSet_next_semantics
    { upcoming := [seriesChunksSet.empty],
      currSet := { series := { arr := [default], len := 1 }, seriesReleasable := false,
                   seriesChunksPool := none, chunksReleaser := false },
      currOffset := 0, pool := [] }).2 (by decide)
  have h2 := h.2.2 seriesChunksSet.empty [] rfl
  exact ⟨h2.2.1, h2.2.2.2⟩

/-
C4 theorem and witness.
-/

/-- C4: the preloading construction makes the bounded channel with
capacity `preloadedCount - 1` and the producer pushes exactly the upstream
batches in order; when the upstream is exhausted a trailing payload
carrying the upstream error is pushed if and only if the upstream errored,
after which the channel is closed (the payload sequence ends). The
consumer's `Next` returns false exactly when the channel is closed or the
received payload carries an error, and in the error case that error is
what `Err` returns afterwards. -/
theorem preloading_termination (Set : Type) [Inhabited Set] :
    (∀ (n : Nat) (batches : List Set) (upErr : Option String),
      (newPreloadingSetIterator n batches upErr).chanCapacity = n - 1 ∧
      (newPreloadingSetIterator n batches upErr).remaining = preloadStream batches upErr) ∧
    (∀ (batches : List Set) (p : Preloaded Set),
      p ∈ preloadStream batches none → p.err = none) ∧
    (∀ (batches : List Set) (e : String),
      ∃ pre, preloadStream batches (some e) =
          pre ++ [{ set := default, err := some e }] ∧
        ∀ p ∈ pre, p.err = none) ∧
    (∀ st : PreloadingState Set,
      ((preloadingNext st).2 = false ↔
        st.remaining = [] ∨ ∃ p rest, st.remaining = p :: rest ∧ p.err.isSome)) ∧
    (∀ (st : PreloadingState Set) (p : Preloaded Set) (rest : List (Preloaded Set))
        (e : String), st.remaining = p :: rest → p.err = some e →
      (preloadingNext st).2 = false ∧ preloadingErr (preloadingNext st).1 = some e) := by
  refine ⟨fun n batches upErr => ⟨rfl, rfl⟩, ?_, ?_, ?_, ?_⟩
  · intro batches p hp
    simp only [preloadStream, List.append_nil, List.mem_map] at hp
    obtain ⟨s, _, hs⟩ := hp
    rw [← hs]
  · intro batches e
    refine ⟨batches.map (fun s => { set := s, err := none }), rfl, ?_⟩
    intro p hp
    simp only [List.mem_map] at hp
    obtain ⟨s, _, hs⟩ := hp
    rw [← hs]
  · intro st
    cases hr : st.remaining with
    | nil => simp [preloadingNext, hr]
    | cons p rest =>
      simp only [preloadingNext, hr]
      constructor
      · intro h
        right
        exact ⟨p, rest, rfl, by cases he : p.err <;> simp [he] at h ⊢⟩
      · intro h
        rcases h with h | ⟨q, rest2, hq, hqe⟩
        · cases h
        · have : q = p := by injection hq with h1 _; exact h1.symm
          subst this
          cases he : q.err with
          | none => rw [he] at hqe; cases hqe
          | some e2 => simp [he]
  · intro st p rest e hr he
    constructor
    · simp [preloadingNext, hr, he]
    · simp [preloadingNext, preloadingErr, hr, he]

/-- The error payload used by the preloading witnesses. -/
def examplePreloadErr : Preloaded Nat :=
  { set := 0, err := some "fetch failed" }

/-- A consumer state about to receive the error payload. -/
def examplePreloadState : PreloadingState Nat :=
  { chanCapacity := 0, remaining := [examplePreloadErr], current := 0, err := none }

/-- Witness for C4 at a concrete input: a one-payload stream carrying an
error. -/
theorem preloading_termination_witness :
    (preloadingNext examplePreloadState).2 = false ∧
    preloadingErr (preloadingNext examplePreloadState).1 = some "fetch failed" := by
  exact (preloading_termination Nat).2.2.2.2 examplePreloadState
    examplePreloadErr [] "fetch failed" rfl rfl

/-
C2: loader error handling.
-/

/-- `newSeriesAggrChunkSlice` only touches the slab-pool field. -/
theorem newSeriesAggrChunkSlice_fields (b : seriesChunksSet) (size : Nat) :
    (b.newSeriesAggrChunkSlice size).2.series = b.series ∧
    (b.newSeriesAggrChunkSlice size).2.seriesReleasable = b.seriesReleasable ∧
    (b.newSeriesAggrChunkSlice size).2.chunksReleaser = b.chunksReleaser := by
  cases hrel : b.seriesReleasable with
  | false => exact ⟨by simp [seriesChunksSet.newSeriesAggrChunkSlice, hrel],
      by simp [seriesChunksSet.newSeriesAggrChunkSlice, hrel],
      by simp [seriesChunksSet.newSeriesAggrChunkSlice, hrel]⟩
  | true => exact ⟨by simp [seriesChunksSet.newSeriesAggrChunkSlice, hrel],
      by simp [seriesChunksSet.newSeriesAggrChunkSlice, hrel],
      by simp [seriesChunksSet.newSeriesAggrChunkSlice, hrel]⟩

/-- The inner registration loop never changes the releasable flag of the
set it populates, on either outcome. -/
theorem addLoadChunksLoop_releasable {ρ : Type} (R : BucketChunkReaders ρ) :
    ∀ (chunks : List chunkRef) (i j : Nat) (b : seriesChunksSet) (r : ρ),
      (∀ b' r', addLoadChunksLoop R chunks i j b r = .ok (b', r') →
        b'.seriesReleasable = b.seriesReleasable) ∧
      (∀ x, addLoadChunksLoop R chunks i j b r = .error x →
        x.2.1.seriesReleasable = b.seriesReleasable) := by
  intro chunks
  induction chunks with
  | nil =>
    intro i j b r
    constructor
    · intro b' r' h
      simp only [addLoadChunksLoop] at h
      injection h with h1
      injection h1 with h2 _
      rw [← h2]
    · intro x h
      simp only [addLoadChunksLoop] at h
      cases h
  | cons chunk rest ih =>
    intro i j b r
    constructor
    · intro b' r' h
      simp only [addLoadChunksLoop] at h
      cases hmatch : R.addLoad r chunk.blockID chunk.ref i j with
      | error e => rw [hmatch] at h; cases h
      | ok r1 =>
        rw [hmatch] at h
        simp only at h
        have h2 := (ih i (j + 1) _ r1).1 b' r' h
        exact h2
    · intro x h
      simp only [addLoadChunksLoop] at h
      cases hmatch : R.addLoad r chunk.blockID chunk.ref i j with
      | error e =>
        rw [hmatch] at h
        injection h with h1
        rw [← h1]
      | ok r1 =>
        rw [hmatch] at h
        simp only at h
        have h2 := (ih i (j + 1) _ r1).2 x h
        exact h2

/-- The outer population loop never changes the releasable flag of the set
it populates, on either outcome. -/
theorem populateLoop_releasable {ρ : Type} (R : BucketChunkReaders ρ) :
    ∀ (refs : List seriesChunkRefs) (i : Nat) (b : seriesChunksSet) (r : ρ),
      (∀ b' r', populateLoop R refs i b r = .ok (b', r') →
        b'.seriesReleasable = b.seriesReleasable) ∧
      (∀ x, populateLoop R refs i b r = .error x →
        x.2.1.seriesReleasable = b.seriesReleasable) := by
  intro refs
  induction refs with
  | nil =>
    intro i b r
    constructor
    · intro b' r' h
      simp only [populateLoop] at h
      injection h with h1
      injection h1 with h2 _
      rw [← h2]
    · intro x h
      simp only [populateLoop] at h
      cases h
  | cons s rest ih =>
    intro i b r
    constructor
    · intro b' r' h
      simp only [populateLoop] at h
      set b1 := { b with series := b.series.set i { b.series.get i with lset := s.lset } } with hb1
      have hfields := newSeriesAggrChunkSlice_fields b1 s.chunks.length
      set res := b1.newSeriesAggrChunkSlice s.chunks.length with hres
      set b2 := { res.2 with series := res.2.series.set i { res.2.series.get i with chks := res.1 } } with hb2
      cases hmatch : addLoadChunksLoop R s.chunks i 0 b2 r with
      | error x => rw [hmatch] at h; cases h
      | ok v =>
        rw [hmatch] at h
        have h3 := (ih (i + 1) v.1 v.2).1 b' r' h
        have h4 := (addLoadChunksLoop_releasable R s.chunks i 0 b2 r).1 v.1 v.2 (by rw [hmatch])
        rw [h3, h4]
        exact hfields.2.1
    · intro x h
      simp only [populateLoop] at h
      set b1 := { b with series := b.series.set i { b.series.get i with lset := s.lset } } with hb1
      have hfields := newSeriesAggrChunkSlice_fields b1 s.chunks.length
      set res := b1.newSeriesAggrChunkSlice s.chunks.length with hres
      set b2 := { res.2 with series := res.2.series.set i { res.2.series.get i with chks := res.1 } } with hb2
      cases hmatch : addLoadChunksLoop R s.chunks i 0 b2 r with
      | error y =>
        rw [hmatch] at h
        injection h with h1
        rw [← h1]
        have h4 := (addLoadChunksLoop_releasable R s.chunks i 0 b2 r).2 y (by rw [hmatch])
        rw [h4]
        exact hfields.2.1
      | ok v =>
        rw [hmatch] at h
        have h3 := (ih (i + 1) v.1 v.2).2 x h
        have h4 := (addLoadChunksLoop_releasable R s.chunks i 0 b2 r).1 v.1 v.2 (by rw [hmatch])
        rw [h3, h4]
        exact hfields.2.1

/-- A releasable set always emits the slice-pooled event on release. -/
theorem release_mem_slicePooled (b : seriesChunksSet) (pool : EntryPool)
    (h : b.seriesReleasable = true) :
    Event.seriesSlicePooled ∈ (b.release pool).2.2 := by
  simp [seriesChunksSet.release, h]

/-- The releasable flag survives the newly constructed set. -/
theorem newSeriesChunksSet_releasable (c : Nat) (rel : Bool) (pool : EntryPool) :
    (newSeriesChunksSet c rel pool).1.seriesReleasable = rel := by
  unfold newSeriesChunksSet
  cases rel <;> cases pool <;> simp

/-- C2: if an error is latched, `Next` returns false without advancing the
upstream or touching any state; if the upstream is exhausted, the
upstream's error (possibly nil) is latched and `Next` returns false; and
when `addLoad` or `load` fails, the output chunk-set is released (its
series slice goes back to the pool and the release events appear in the
trace), the wrapped error is latched, and `Next` returns false with the
current set unchanged — the partial batch is never published. -/
theorem loading_error_handling (ρ : Type) (R : BucketChunkReaders ρ) (up : RefsUpstream)
    (fbs : Nat) (st : LoadingState ρ) :
    (st.err.isSome → loadingNext R up fbs st = (st, false, [])) ∧
    (st.err = none → up.batches.length ≤ st.upIdx →
      loadingNext R up fbs st = ({ st with err := up.finalErr }, false, [])) ∧
    (∀ st' evs, st.err = none → st.upIdx < up.batches.length →
      loadingNext R up fbs st = (st', false, evs) →
      (∃ e, st'.err = some (wrapErr "preloading chunks" e) ∨
            st'.err = some (wrapErr "loading chunks" e)) ∧
      st'.current = st.current ∧
      Event.seriesSlicePooled ∈ evs ∧ Event.refsReleased ∈ evs) := by
  refine ⟨?_, ?_, ?_⟩
  · intro h
    simp [loadingNext, h]
  · intro h1 h2
    have h3 : ¬ st.upIdx < up.batches.length := by omega
    simp [loadingNext, h1, h3]
  · intro st' evs h1 h2 h
    simp only [loadingNext, h1, Option.isSome_none, Bool.false_eq_true, if_false, h2,
      if_true] at h
    set U := up.batches.getD st.upIdx default with hU
    set res := newSeriesChunksSet (max fbs U.len) true st.pool with hres
    set nextSet1 : seriesChunksSet :=
      { res.1 with series := res.1.series.resliceTo U.len } with hns
    have hrel1 : nextSet1.seriesReleasable = true := by
      rw [hns]
      simpa [Slice.resliceTo] using newSeriesChunksSet_releasable (max fbs U.len) true st.pool
    cases hpop : populateLoop R U.series 0 nextSet1 (R.reset st.readers) with
    | error x =>
      rw [hpop] at h
      simp only at h
      have hx : x.2.1.seriesReleasable = true := by
        rw [(populateLoop_releasable R U.series 0 nextSet1 (R.reset st.readers)).2 x
          (by rw [hpop])]
        exact hrel1
      have hst := congrArg (fun z => z.1) h
      have hev := congrArg (fun z => z.2.2) h
      simp only at hst hev
      refine ⟨⟨x.1, Or.inl (by rw [← hst])⟩, by rw [← hst], ?_, ?_⟩
      · rw [← hev]
        exact List.mem_append_left _ (release_mem_slicePooled _ _ hx)
      · rw [← hev]
        exact List.mem_append_right _ (by simp)
    | ok v =>
      rw [hpop] at h
      simp only at h
      cases hload : R.loadBytes v.2 with
      | error e =>
        rw [hload] at h
        simp only at h
        have hv : v.1.seriesReleasable = true := by
          rw [(populateLoop_releasable R U.series 0 nextSet1 (R.reset st.readers)).1 v.1 v.2
            (by rw [hpop])]
          exact hrel1
        have hst := congrArg (fun z => z.1) h
        have hev := congrArg (fun z => z.2.2) h
        simp only at hst hev
        refine ⟨⟨e, Or.inr (by rw [← hst])⟩, by rw [← hst], ?_, ?_⟩
        · rw [← hev]
          exact List.mem_append_left _ (release_mem_slicePooled _ _ hv)
        · rw [← hev]
          exact List.mem_append_right _ (by simp)
      | ok f =>
        rw [hload] at h
        simp only at h
        have := congrArg (fun z => z.2.1) h
        simp at this

/-- A failing reader: `addLoad` always errors. -/
def exampleFailingReaders : BucketChunkReaders Unit :=
  { reset := fun r => r, addLoad := fun _ _ _ _ _ => .error "boom",
    loadBytes := fun _ => .ok (fun _ _ => []) }

/-- A sample chunk reference. -/
def exampleChunkRef : chunkRef :=
  { blockID := 7, ref := 11, minTime := 0, maxTime := 100 }

/-- A sample reference series. -/
def exampleSeriesRefs : seriesChunkRefs :=
  { lset := [("a", "1")], chunks := [exampleChunkRef] }

/-- A one-batch, one-series, one-chunk upstream. -/
def exampleRefsUpstream : RefsUpstream :=
  { batches := [{ series := [exampleSeriesRefs] }], finalErr := none }

/-- The initial loading-iterator state. -/
def exampleLoadingState : LoadingState Unit :=
  { upIdx := 0, err := none, current := seriesChunksSet.empty,
    readers := (), pool := [] }

/-- Witness for C2 at a concrete input: `addLoad` fails on a one-series
batch, so the output set is released and nothing is published. -/
theorem loading_error_handling_witness :
    Event.seriesSlicePooled ∈
      (loadingNext exampleFailingReaders exampleRefsUpstream 4 exampleLoadingState).2.2 ∧
    (loadingNext exampleFailingReaders exampleRefsUpstream 4 exampleLoadingState).1.current =
      seriesChunksSet.empty := by
  have hx : loadingNext exampleFailingReaders exampleRefsUpstream 4 exampleLoadingState =
      ({ upIdx := 1, err := some "preloading chunks: boom",
         current := seriesChunksSet.empty, readers := (),
         pool := [{ arr := List.replicate 4 default, len := 0 }] }, false,
       [Event.slabPoolReleased, Event.seriesSlicePooled, Event.refsReleased]) := rfl
  have h := (loading_error_handling Unit exampleFailingReaders exampleRefsUpstream 4
    exampleLoadingState).2.2 _ _ rfl Nat.zero_lt_one hx
  rw [hx]
  exact ⟨h.2.2.1, h.2.1⟩

/-
C9: idempotent exhaustion.
-/

/-- Updating the latched error with its current value changes nothing. -/
theorem loadingState_eta_err {ρ : Type} (st : LoadingState ρ) (h : st.err = none) :
    ({ st with err := none } : LoadingState ρ) = st := by
  cases st with
  | mk u e c r p =>
    simp only at h
    rw [h]

/-- Once the loading iterator has returned false, its state is a fixpoint
of `Next`. -/
theorem loadingNext_false_fix {ρ : Type} (R : BucketChunkReaders ρ) (up : RefsUpstream)
    (fbs : Nat) (st st' : LoadingState ρ) (evs : List Event)
    (h : loadingNext R up fbs st = (st', false, evs)) :
    loadingNext R up fbs st' = (st', false, []) := by
  by_cases h1 : st.err.isSome
  · simp only [loadingNext, h1, if_true] at h
    have hs := congrArg (fun z => z.1) h
    simp only at hs
    rw [← hs]
    simp [loadingNext, h1]
  · have h1n : st.err = none := by
      cases he : st.err
      · rfl
      · rw [he] at h1; simp at h1
    have h1b : st.err.isSome = false := by rw [h1n]; rfl
    by_cases h2 : st.upIdx < up.batches.length
    · simp only [loadingNext, h1b, Bool.false_eq_true, if_false, h2, if_true] at h
      cases hpop : populateLoop R (up.batches.getD st.upIdx default).series 0
          { (newSeriesChunksSet (max fbs (up.batches.getD st.upIdx default).len) true st.pool).1 with
            series := (newSeriesChunksSet (max fbs (up.batches.getD st.upIdx default).len) true
              st.pool).1.series.resliceTo (up.batches.getD st.upIdx default).len }
          (R.reset st.readers) with
      | error x =>
        rw [hpop] at h
        simp only at h
        have hs := congrArg (fun z => z.1) h
        simp only at hs
        have herr : st'.err.isSome = true := by rw [← hs]; rfl
        simp [loadingNext, herr]
      | ok v =>
        rw [hpop] at h
        simp only at h
        cases hload : R.loadBytes v.2 with
        | error e =>
          rw [hload] at h
          simp only at h
          have hs := congrArg (fun z => z.1) h
          simp only at hs
          have herr : st'.err.isSome = true := by rw [← hs]; rfl
          simp [loadingNext, herr]
        | ok f =>
          rw [hload] at h
          simp only at h
          have := congrArg (fun z => z.2.1) h
          simp at this
    · simp only [loadingNext, h1b, Bool.false_eq_true, if_false, h2, if_true] at h
      have hs := congrArg (fun z => z.1) h
      simp only at hs
      cases hfin : up.finalErr with
      | some e =>
        have herr : st'.err.isSome = true := by rw [← hs, hfin]; rfl
        simp [loadingNext, herr]
      | none =>
        rw [hfin] at hs
        have hs2 : st' = st := by rw [← hs]; exact loadingState_eta_err st h1n
        subst hs2
        have h2b : ¬ st'.upIdx < up.batches.length := h2
        simp only [loadingNext, h1b, Bool.false_eq_true, if_false, h2b, if_true, hfin]
        rw [loadingState_eta_err st' h1n]

/-- Iterating `Next` from a fixpoint stays there. -/
theorem loadingNextN_fix {ρ : Type} (R : BucketChunkReaders ρ) (up : RefsUpstream)
    (fbs : Nat) (st : LoadingState ρ) (h : loadingNext R up fbs st = (st, false, [])) :
    ∀ n, loadingNextN R up fbs n st = st := by
  intro n
  induction n with
  | zero => rfl
  | succ m ih => simp [loadingNextN, ih, h]

/-- Iterating the preloading `Next` on a closed channel changes nothing. -/
theorem preloadingNextN_fix {Set : Type} (st : PreloadingState Set) (h : st.remaining = []) :
    ∀ n, preloadingNextN n st = st := by
  intro n
  induction n with
  | zero => rfl
  | succ m ih => simp [preloadingNextN, ih, preloadingNext, h]

/-- In a list of the shape `L ++ [x]` where no element of `L` satisfies
`P`, an element satisfying `P` can only be the last one. -/
theorem append_singleton_last {α : Type} (P : α → Prop) :
    ∀ (pre L : List α) (p x : α) (rest : List α),
      (∀ q ∈ L, ¬ P q) → pre ++ p :: rest = L ++ [x] → P p → rest = [] := by
  intro pre
  induction pre with
  | nil =>
    intro L p x rest hL h hp
    cases L with
    | nil =>
      simp only [List.nil_append, List.cons.injEq] at h
      exact h.2
    | cons q L1 =>
      simp only [List.nil_append, List.cons_append] at h
      injection h with h1 h2
      exact absurd hp (h1 ▸ hL q (by simp))
  | cons a pre1 ih =>
    intro L p x rest hL h hp
    cases L with
    | nil =>
      simp only [List.cons_append, List.nil_append] at h
      injection h with h1 h2
      cases pre1 <;> simp at h2
    | cons q L1 =>
      simp only [List.cons_append] at h
      injection h with h1 h2
      exact ih L1 p x rest (fun q hq => hL q (by simp [hq])) h2 hp

/-- In the producer's payload sequence, a payload carrying an error is
always the final one before the channel closes. -/
theorem preloadStream_error_last {Set : Type} [Inhabited Set] (batches : List Set)
    (upErr : Option String) (pre : List (Preloaded Set)) (p : Preloaded Set)
    (rest : List (Preloaded Set))
    (h : pre ++ p :: rest = preloadStream batches upErr) (he : p.err.isSome) :
    rest = [] := by
  cases upErr with
  | none =>
    exfalso
    have hp : p ∈ preloadStream batches none := by
      rw [← h]
      simp
    simp only [preloadStream, List.append_nil, List.mem_map] at hp
    obtain ⟨s, _, hs⟩ := hp
    rw [← hs] at he
    simp at he
  | some e =>
    refine append_singleton_last (fun q => q.err.isSome = true)
      pre (batches.map (fun s => { set := s, err := none })) p
      { set := default, err := some e } rest ?_ ?_ he
    · intro q hq
      simp only [List.mem_map] at hq
      obtain ⟨s, _, hs⟩ := hq
      rw [← hs]
      simp
    · rw [h]
      rfl

/-- C9: once `Next` has returned false, every subsequent call to `Next`
also returns false and `Err` is stable — for the loading iterator
(whose modelled upstream satisfies the same law by construction) and for
the preloading iterator (whose channel content is a suffix of the
producer's payload sequence). -/
theorem idempotent_exhaustion (ρ Set : Type) [Inhabited Set] (R : BucketChunkReaders ρ)
    (up : RefsUpstream) (fbs : Nat) (batches : List Set) (upErr : Option String) :
    (∀ (st st' : LoadingState ρ) (evs : List Event),
      loadingNext R up fbs st = (st', false, evs) →
      ∀ n, (loadingNext R up fbs (loadingNextN R up fbs n st')).2.1 = false ∧
        (loadingNextN R up fbs n st').err = st'.err) ∧
    (∀ (st st' : PreloadingState Set) (b : Bool),
      (∃ pre, pre ++ st.remaining = preloadStream batches upErr) →
      preloadingNext st = (st', b) → b = false →
      ∀ n, (preloadingNext (preloadingNextN n st')).2 = false ∧
        (preloadingNextN n st').err = st'.err) := by
  constructor
  · intro st st' evs h n
    have hfix := loadingNext_false_fix R up fbs st st' evs h
    have hn := loadingNextN_fix R up fbs st' hfix n
    rw [hn, hfix]
    exact ⟨rfl, rfl⟩
  · intro st st' b hsuffix hnext hb n
    subst hb
    cases hr : st.remaining with
    | nil =>
      have hs : st' = st := by
        simp only [preloadingNext, hr] at hnext
        have := congrArg (fun z => z.1) hnext
        simp only at this
        exact this.symm
      subst hs
      have hn := preloadingNextN_fix st' hr n
      rw [hn]
      simp [preloadingNext, hr]
    | cons p rest =>
      simp only [preloadingNext, hr] at hnext
      have hfalse := congrArg (fun z => z.2) hnext
      simp only at hfalse
      have he : p.err.isSome := by
        cases hpe : p.err
        · rw [hpe] at hfalse; simp at hfalse
        · rfl
      obtain ⟨pre, hpre⟩ := hsuffix
      rw [hr] at hpre
      have hrest : rest = [] := preloadStream_error_last batches upErr pre p rest hpre he
      have hs := congrArg (fun z => z.1) hnext
      simp only at hs
      have hrem : st'.remaining = [] := by rw [← hs, hrest]
      have hn := preloadingNextN_fix st' hrem n
      rw [hn]
      simp [preloadingNext, hrem]

/-- A consumer state after the error payload: channel closed, error latched. -/
def examplePreloadClosed : PreloadingState Nat :=
  { chanCapacity := 0, remaining := [], current := 0, err := some "fetch failed" }

/-- Witness for C9 at concrete inputs: a loading iterator over an empty
upstream and a preloading consumer that just received the error payload. -/
theorem idempotent_exhaustion_witness :
    (loadingNext exampleFailingReaders { batches := [], finalErr := none } 4
      (loadingNextN exampleFailingReaders { batches := [], finalErr := none } 4 2
        exampleLoadingState)).2.1 = false ∧
    (preloadingNext (preloadingNextN 3 examplePreloadClosed)).2 = false := by
  constructor
  · have h := (idempotent_exhaustion Unit Nat exampleFailingReaders
      { batches := [], finalErr := none } 4 [] (some "fetch failed")).1
      exampleLoadingState exampleLoadingState [] rfl 2
    exact h.1
  · have h := (idempotent_exhaustion Unit Nat exampleFailingReaders
      { batches := [], finalErr := none } 4 [] (some "fetch failed")).2
      { chanCapacity := 0, remaining := [{ set := 0, err := some "fetch failed" }],
        current := 0, err := none }
      { chanCapacity := 0, remaining := [], current := 0, err := some "fetch failed" }
      false ⟨[], rfl⟩ rfl rfl 3
    exact h.1

/-
C1: chunk fidelity of the loader stage. The two population loops are
characterised by pure functions on the chunk-set (`setTimes` for the inner
loop writing the time bounds, `populatePure` for the outer loop), proved
equal to the loops on their success path, and the fidelity facts are read
off those pure functions.
-/

/-- The pure effect of the inner loop on the chunk slice: write the time
bounds of each reference into consecutive slots starting at `j`. -/
def setTimes : List chunkRef → Nat → Slice AggrChunk → Slice AggrChunk
  | [], _, chks => chks
  | chunk :: rest, j, chks =>
    setTimes rest (j + 1)
      (chks.set j { chks.get j with MinTime := chunk.minTime, MaxTime := chunk.maxTime })

@[simp] theorem setTimes_len :
    ∀ (chunks : List chunkRef) (j : Nat) (chks : Slice AggrChunk),
      (setTimes chunks j chks).len = chks.len := by
  intro chunks
  induction chunks with
  | nil => intro j chks; rfl
  | cons c rest ih => intro j chks; simp [setTimes, ih]

@[simp] theorem setTimes_arr_length :
    ∀ (chunks : List chunkRef) (j : Nat) (chks : Slice AggrChunk),
      (setTimes chunks j chks).arr.length = chks.arr.length := by
  intro chunks
  induction chunks with
  | nil => intro j chks; rfl
  | cons c rest ih => intro j chks; simp [setTimes, ih, Slice.set]

theorem setTimes_get_lt :
    ∀ (chunks : List chunkRef) (j : Nat) (chks : Slice AggrChunk) (m : Nat), m < j →
      (setTimes chunks j chks).get m = chks.get m := by
  intro chunks
  induction chunks with
  | nil => intro j chks m _; rfl
  | cons c rest ih =>
    intro j chks m hm
    simp only [setTimes]
    rw [ih (j + 1) _ m (by omega)]
    exact slice_get_set_ne _ j m _ (by omega)

theorem setTimes_get_spec :
    ∀ (chunks : List chunkRef) (j : Nat) (chks : Slice AggrChunk) (k : Nat),
      k < chunks.length → j + chunks.length ≤ chks.arr.length →
      (setTimes chunks j chks).get (j + k) =
        { chks.get (j + k) with
          MinTime := (chunks.getD k default).minTime,
          MaxTime := (chunks.getD k default).maxTime } := by
  intro chunks
  induction chunks with
  | nil => intro j chks k hk _; simp at hk
  | cons c rest ih =>
    intro j chks k hk hb
    cases k with
    | zero =>
      simp only [setTimes, Nat.add_zero]
      rw [setTimes_get_lt rest (j + 1) _ j (by omega)]
      rw [slice_get_set_self _ j _ (by simp only [Slice.cap, List.length_cons] at hb ⊢; omega)]
      rfl
    | succ m =>
      have harith : j + (m + 1) = (j + 1) + m := by omega
      rw [harith]
      simp only [setTimes]
      rw [ih (j + 1) _ m (by simpa using hk) (by simp [Slice.set] at hb ⊢; omega)]
      rw [slice_get_set_ne _ j ((j + 1) + m) _ (by omega)]
      rfl

/-- The inner loop's total effect on the entry it populates. -/
def entrySetTimes (chunks : List chunkRef) (j : Nat) (e : seriesEntry) : seriesEntry :=
  { e with chks := setTimes chunks j e.chks }

theorem entrySetTimes_cons (chunk : chunkRef) (rest : List chunkRef) (j : Nat)
    (e : seriesEntry) :
    entrySetTimes (chunk :: rest) j e = entrySetTimes rest (j + 1) (entryStepTimes chunk j e) := by
  rfl

/-- The pure effect of the outer loop on the chunk-set. -/
def populatePure : List seriesChunkRefs → Nat → seriesChunksSet → seriesChunksSet
  | [], _, b => b
  | s :: rest, i, b =>
    let b := { b with series := b.series.set i { b.series.get i with lset := s.lset } }
    let res := b.newSeriesAggrChunkSlice s.chunks.length
    let b := { res.2 with series := res.2.series.set i { res.2.series.get i with chks := res.1 } }
    let b := { b with series := b.series.set i (entrySetTimes s.chunks 0 (b.series.get i)) }
    populatePure rest (i + 1) b

/-- Both branches of `newSeriesAggrChunkSlice` hand out a zero-filled
slice of length and capacity exactly `size`. -/
theorem newSeriesAggrChunkSlice_fresh (b : seriesChunksSet) (size : Nat) :
    (b.newSeriesAggrChunkSlice size).1 = Slice.make size size := by
  cases hrel : b.seriesReleasable with
  | false => simp [seriesChunksSet.newSeriesAggrChunkSlice, hrel, Slice.make]
  | true =>
    cases hp : b.seriesChunksPool <;>
      simp [seriesChunksSet.newSeriesAggrChunkSlice, hrel, hp, SlabPool.get, Slice.make]

/-- On its success path the inner registration loop computes exactly
`entrySetTimes` on the entry being populated. -/
theorem addLoadChunksLoop_ok_eq {ρ : Type} (R : BucketChunkReaders ρ) :
    ∀ (chunks : List chunkRef) (i j : Nat) (b : seriesChunksSet) (r : ρ)
      (b' : seriesChunksSet) (r' : ρ), i < b.series.arr.length →
      addLoadChunksLoop R chunks i j b r = .ok (b', r') →
      b' = { b with series := b.series.set i (entrySetTimes chunks j (b.series.get i)) } := by
  intro chunks
  induction chunks with
  | nil =>
    intro i j b r b' r' hi h
    simp only [addLoadChunksLoop] at h
    injection h with h1
    injection h1 with h2 h3
    rw [← h2]
    show b = { b with series := b.series.set i (entrySetTimes [] j (b.series.get i)) }
    rw [show entrySetTimes [] j (b.series.get i) = b.series.get i from rfl]
    rw [slice_set_get_self _ _ hi]
  | cons chunk rest ih =>
    intro i j b r b' r' hi h
    simp only [addLoadChunksLoop] at h
    cases hmatch : R.addLoad r chunk.blockID chunk.ref i j with
    | error e => rw [hmatch] at h; cases h
    | ok r1 =>
      rw [hmatch] at h
      simp only at h
      have hB := ih i (j + 1)
        { b with series := b.series.set i (entryStepTimes chunk j (b.series.get i)) } r1 b' r'
        (by simpa [Slice.set] using hi) h
      rw [hB]
      have hgi : ({ b with series := b.series.set i (entryStepTimes chunk j (b.series.get i)) } :
          seriesChunksSet).series.get i = entryStepTimes chunk j (b.series.get i) :=
        slice_get_set_self _ i _ hi
      rw [hgi]
      rw [show ({ b with series := b.series.set i (entryStepTimes chunk j (b.series.get i)) } :
        seriesChunksSet).series = b.series.set i (entryStepTimes chunk j (b.series.get i)) from rfl]
      rw [slice_set_set]
      rw [← entrySetTimes_cons]

/-- On its success path the outer population loop computes exactly
`populatePure`. -/
theorem populateLoop_ok_eq {ρ : Type} (R : BucketChunkReaders ρ) :
    ∀ (refs : List seriesChunkRefs) (i : Nat) (b : seriesChunksSet) (r : ρ)
      (b' : seriesChunksSet) (r' : ρ), i + refs.length ≤ b.series.arr.length →
      populateLoop R refs i b r = .ok (b', r') →
      b' = populatePure refs i b := by
  intro refs
  induction refs with
  | nil =>
    intro i b r b' r' _ h
    simp only [populateLoop] at h
    injection h with h1
    injection h1 with h2 h3
    rw [← h2]
    rfl
  | cons s rest ih =>
    intro i b r b' r' hb h
    simp only [populateLoop] at h
    have hi : i < b.series.arr.length := by simp at hb; omega
    set b1 := { b with series := b.series.set i { b.series.get i with lset := s.lset } } with hb1
    set res := b1.newSeriesAggrChunkSlice s.chunks.length with hres
    set b2 := { res.2 with series := res.2.series.set i { res.2.series.get i with chks := res.1 } } with hb2
    have harr2 : b2.series.arr.length = b.series.arr.length := by
      rw [hb2, (newSeriesAggrChunkSlice_fields b1 s.chunks.length).1, hb1]
      simp [Slice.set]
    cases hmatch : addLoadChunksLoop R s.chunks i 0 b2 r with
    | error x => rw [hmatch] at h; cases h
    | ok v =>
      rw [hmatch] at h
      simp only at h
      have hB := addLoadChunksLoop_ok_eq R s.chunks i 0 b2 r v.1 v.2
        (by rw [harr2]; exact hi) (by rw [hmatch])
      have harr3 : v.1.series.arr.length = b.series.arr.length := by
        rw [hB]
        simpa [Slice.set] using harr2
      have hrec := ih (i + 1) v.1 v.2 b' r' (by rw [harr3]; simp at hb ⊢; omega) h
      rw [hrec, hB]
      simp only [populatePure]

/-- The capacity guarantee of `newSeriesChunksSet`, with no assumption on
the pool contents. -/
theorem newSeriesChunksSet_cap_ge (c : Nat) (rel : Bool) (pool : EntryPool) :
    c ≤ (newSeriesChunksSet c rel pool).1.series.cap := by
  cases rel with
  | false => simp [newSeriesChunksSet]
  | true =>
    cases pool with
    | nil => simp [newSeriesChunksSet]
    | cons reused rest =>
      by_cases hcap : reused.cap < c
      · simp [newSeriesChunksSet, hcap]
      · simp only [newSeriesChunksSet, hcap]
        simpa using Nat.le_of_not_lt hcap

/-- The one-series body of the population loops. -/
def populateStep (s : seriesChunkRefs) (i : Nat) (b : seriesChunksSet) : seriesChunksSet :=
  let b := { b with series := b.series.set i { b.series.get i with lset := s.lset } }
  let res := b.newSeriesAggrChunkSlice s.chunks.length
  let b := { res.2 with series := res.2.series.set i { res.2.series.get i with chks := res.1 } }
  { b with series := b.series.set i (entrySetTimes s.chunks 0 (b.series.get i)) }

theorem populatePure_cons (s : seriesChunkRefs) (rest : List seriesChunkRefs) (i : Nat)
    (b : seriesChunksSet) :
    populatePure (s :: rest) i b = populatePure rest (i + 1) (populateStep s i b) := rfl

/-- The series slice of `populateStep`, written as plain updates. -/
theorem populateStep_series (s : seriesChunkRefs) (i : Nat) (b : seriesChunksSet) :
    (populateStep s i b).series =
      ((b.series.set i { b.series.get i with lset := s.lset }).set i
        { (b.series.set i { b.series.get i with lset := s.lset }).get i with
          chks := Slice.make s.chunks.length s.chunks.length }).set i
        (entrySetTimes s.chunks 0
          (((b.series.set i { b.series.get i with lset := s.lset }).set i
            { (b.series.set i { b.series.get i with lset := s.lset }).get i with
              chks := Slice.make s.chunks.length s.chunks.length }).get i)) := by
  show ((({ b with series := b.series.set i { b.series.get i with lset := s.lset } } :
      seriesChunksSet).newSeriesAggrChunkSlice s.chunks.length).2.series.set i _).set i _ = _
  rw [(newSeriesAggrChunkSlice_fields _ s.chunks.length).1]
  rw [newSeriesAggrChunkSlice_fresh]

theorem populateStep_len (s : seriesChunkRefs) (i : Nat) (b : seriesChunksSet) :
    (populateStep s i b).series.len = b.series.len ∧
    (populateStep s i b).series.arr.length = b.series.arr.length := by
  rw [populateStep_series]
  simp [Slice.set]

theorem populateStep_get_ne (s : seriesChunkRefs) (i : Nat) (b : seriesChunksSet)
    (k : Nat) (hk : k ≠ i) :
    (populateStep s i b).series.get k = b.series.get k := by
  rw [populateStep_series]
  rw [slice_get_set_ne _ i k _ (fun hc => hk hc.symm)]
  rw [slice_get_set_ne _ i k _ (fun hc => hk hc.symm)]
  rw [slice_get_set_ne _ i k _ (fun hc => hk hc.symm)]

theorem populateStep_get_self (s : seriesChunkRefs) (i : Nat) (b : seriesChunksSet)
    (hi : i < b.series.arr.length) :
    (populateStep s i b).series.get i =
      entrySetTimes s.chunks 0
        { lset := s.lset, chks := Slice.make s.chunks.length s.chunks.length } := by
  rw [populateStep_series]
  rw [slice_get_set_self _ i _ (by simpa [Slice.set, Slice.cap] using hi)]
  rw [slice_get_set_self _ i _ (by simpa [Slice.set, Slice.cap] using hi)]
  rw [slice_get_set_self _ i _ (by simpa [Slice.set, Slice.cap] using hi)]

theorem populatePure_shape :
    ∀ (refs : List seriesChunkRefs) (i : Nat) (b : seriesChunksSet),
      (populatePure refs i b).series.len = b.series.len ∧
      (populatePure refs i b).series.arr.length = b.series.arr.length := by
  intro refs
  induction refs with
  | nil => intro i b; exact ⟨rfl, rfl⟩
  | cons s rest ih =>
    intro i b
    rw [populatePure_cons]
    have h1 := ih (i + 1) (populateStep s i b)
    have h2 := populateStep_len s i b
    exact ⟨h1.1.trans h2.1, h1.2.trans h2.2⟩

theorem populatePure_get_lt :
    ∀ (refs : List seriesChunkRefs) (i : Nat) (b : seriesChunksSet) (k : Nat), k < i →
      (populatePure refs i b).series.get k = b.series.get k := by
  intro refs
  induction refs with
  | nil => intro i b k _; rfl
  | cons s rest ih =>
    intro i b k hk
    rw [populatePure_cons]
    rw [ih (i + 1) _ k (by omega)]
    exact populateStep_get_ne s i b k (by omega)

theorem populatePure_get_spec :
    ∀ (refs : List seriesChunkRefs) (i : Nat) (b : seriesChunksSet) (k : Nat),
      k < refs.length → i + refs.length ≤ b.series.arr.length →
      (populatePure refs i b).series.get (i + k) =
        entrySetTimes (refs.getD k default).chunks 0
          { lset := (refs.getD k default).lset,
            chks := Slice.make (refs.getD k default).chunks.length
              (refs.getD k default).chunks.length } := by
  intro refs
  induction refs with
  | nil => intro i b k hk _; simp at hk
  | cons s rest ih =>
    intro i b k hk hb
    cases k with
    | zero =>
      rw [populatePure_cons]
      simp only [Nat.add_zero]
      rw [populatePure_get_lt rest (i + 1) (populateStep s i b) i (by omega)]
      exact populateStep_get_self s i b (by simp at hb; omega)
    | succ m =>
      have harith : i + (m + 1) = (i + 1) + m := by omega
      rw [populatePure_cons, harith]
      rw [ih (i + 1) (populateStep s i b) m (by simpa using hk)
        (by rw [(populateStep_len s i b).2]; simp at hb; omega)]
      rfl

@[simp] theorem applyLoadChunk_length (g : Nat → List Nat) (len : Nat) :
    ∀ (j : Nat) (arr : List AggrChunk), (applyLoadChunk g len j arr).length = arr.length := by
  intro j arr
  induction arr generalizing j with
  | nil => rfl
  | cons c cs ih => simp [applyLoadChunk, ih]

theorem applyLoadChunk_getD (g : Nat → List Nat) (len : Nat) :
    ∀ (arr : List AggrChunk) (j k : Nat), k < arr.length →
      (applyLoadChunk g len j arr).getD k default =
        if j + k < len then { arr.getD k default with Raw := g (j + k) }
        else arr.getD k default := by
  intro arr
  induction arr with
  | nil => intro j k hk; simp at hk
  | cons c cs ih =>
    intro j k hk
    cases k with
    | zero => simp [applyLoadChunk, List.getD]
    | succ m =>
      have harith : j + (m + 1) = (j + 1) + m := by omega
      simp only [applyLoadChunk, List.getD_cons_succ, harith]
      exact ih (j + 1) m (by simpa using hk)

@[simp] theorem applyLoadEntry_length (f : Nat → Nat → List Nat) (len : Nat) :
    ∀ (i : Nat) (arr : List seriesEntry), (applyLoadEntry f len i arr).length = arr.length := by
  intro i arr
  induction arr generalizing i with
  | nil => rfl
  | cons e es ih => simp [applyLoadEntry, ih]

theorem applyLoadEntry_getD (f : Nat → Nat → List Nat) (len : Nat) :
    ∀ (arr : List seriesEntry) (i k : Nat), k < arr.length →
      (applyLoadEntry f len i arr).getD k default =
        if i + k < len then applyLoadOne (f (i + k)) (arr.getD k default)
        else arr.getD k default := by
  intro arr
  induction arr with
  | nil => intro i k hk; simp at hk
  | cons e es ih =>
    intro i k hk
    cases k with
    | zero => simp [applyLoadEntry, List.getD]
    | succ m =>
      have harith : i + (m + 1) = (i + 1) + m := by omega
      simp only [applyLoadEntry, List.getD_cons_succ, harith]
      exact ih (i + 1) m (by simpa using hk)

/-- C1: chunk fidelity of the loader stage — whenever `Next` succeeds, the
published set has exactly one series entry per upstream series, each
entry's chunk slice has length equal to the number of chunk references of
the corresponding upstream series, the label set is the upstream one
(copied by reference), and every chunk's `MinTime` / `MaxTime` equal the
corresponding reference's `minTime` / `maxTime`. -/
theorem loading_chunk_fidelity (ρ : Type) (R : BucketChunkReaders ρ) (up : RefsUpstream)
    (fbs : Nat) (st st' : LoadingState ρ) (evs : List Event)
    (h : loadingNext R up fbs st = (st', true, evs)) :
    st'.current.len = (up.batches.getD st.upIdx default).len ∧
    (∀ i, i < (up.batches.getD st.upIdx default).len →
      (st'.current.series.get i).lset =
        ((up.batches.getD st.upIdx default).series.getD i default).lset ∧
      (st'.current.series.get i).chks.len =
        ((up.batches.getD st.upIdx default).series.getD i default).chunks.length ∧
      (∀ j, j < ((up.batches.getD st.upIdx default).series.getD i default).chunks.length →
        ((st'.current.series.get i).chks.get j).MinTime =
          (((up.batches.getD st.upIdx default).series.getD i
            default).chunks.getD j default).minTime ∧
        ((st'.current.series.get i).chks.get j).MaxTime =
          (((up.batches.getD st.upIdx default).series.getD i
            default).chunks.getD j default).maxTime)) := by
  have h1 : st.err.isSome = false := by
    cases he : st.err with
    | none => rfl
    | some e =>
      exfalso
      have h1s : st.err.isSome = true := by rw [he]; rfl
      simp only [loadingNext, h1s, if_true] at h
      have := congrArg (fun z => z.2.1) h
      simp at this
  have h2 : st.upIdx < up.batches.length := by
    by_contra hc
    simp only [loadingNext, h1, Bool.false_eq_true, if_false, hc, if_true] at h
    have := congrArg (fun z => z.2.1) h
    simp at this
  simp only [loadingNext, h1, Bool.false_eq_true, if_false, h2, if_true] at h
  set U := up.batches.getD st.upIdx default with hU
  set res := newSeriesChunksSet (max fbs U.len) true st.pool with hresd
  set nextSet1 : seriesChunksSet :=
    { res.1 with series := res.1.series.resliceTo U.len } with hns
  have hb0 : U.series.length ≤ nextSet1.series.arr.length := by
    have hcap := newSeriesChunksSet_cap_ge (max fbs U.len) true st.pool
    have hcap2 : res.1.series.cap = res.1.series.arr.length := rfl
    have harr : nextSet1.series.arr.length = res.1.series.arr.length := rfl
    have hlen2 : U.series.length = U.len := rfl
    have hmax : U.len ≤ max fbs U.len := Nat.le_max_right _ _
    rw [← hresd] at hcap
    omega
  cases hpop : populateLoop R U.series 0 nextSet1 (R.reset st.readers) with
  | error x =>
    rw [hpop] at h
    simp only at h
    have := congrArg (fun z => z.2.1) h
    simp at this
  | ok v =>
    rw [hpop] at h
    simp only at h
    cases hload : R.loadBytes v.2 with
    | error e =>
      rw [hload] at h
      simp only at h
      have := congrArg (fun z => z.2.1) h
      simp at this
    | ok f =>
      rw [hload] at h
      simp only at h
      have hst := congrArg (fun z => z.1) h
      simp only at hst
      have hcur : st'.current = { applyLoad f v.1 with chunksReleaser := true } := by
        rw [← hst]
      have hB := populateLoop_ok_eq R U.series 0 nextSet1 (R.reset st.readers) v.1 v.2
        (by simpa using hb0) hpop
      have hlen1 : nextSet1.series.len = U.len := rfl
      have hvlen : v.1.series.len = U.len := by
        rw [hB, (populatePure_shape U.series 0 nextSet1).1]
        exact hlen1
      have hvarr : v.1.series.arr.length = nextSet1.series.arr.length := by
        rw [hB]
        exact (populatePure_shape U.series 0 nextSet1).2
      have hcs : st'.current.series =
          { v.1.series with arr := applyLoadEntry f v.1.series.len 0 v.1.series.arr } := by
        rw [hcur]
        rfl
      constructor
      · show st'.current.series.len = U.len
        rw [hcs]
        exact hvlen
      · intro i hi
        have hi' : i < U.series.length := hi
        have hiarr : i < v.1.series.arr.length := by
          have : U.series.length ≤ v.1.series.arr.length := by rw [hvarr]; exact hb0
          omega
        have hget : st'.current.series.get i =
            (applyLoadEntry f v.1.series.len 0 v.1.series.arr).getD i default := by
          rw [hcs]
          rfl
        have hgetD := applyLoadEntry_getD f v.1.series.len v.1.series.arr 0 i hiarr
        have hpos : 0 + i < v.1.series.len := by
          rw [Nat.zero_add, hvlen]
          exact hi
        rw [if_pos hpos] at hgetD
        have hentry : v.1.series.get i =
            entrySetTimes (U.series.getD i default).chunks 0
              { lset := (U.series.getD i default).lset,
                chks := Slice.make (U.series.getD i default).chunks.length
                  (U.series.getD i default).chunks.length } := by
          rw [hB]
          have hs := populatePure_get_spec U.series 0 nextSet1 i hi' (by simpa using hb0)
          simpa using hs
        have harr_get : v.1.series.arr.getD i default = v.1.series.get i := rfl
        rw [hget, hgetD, Nat.zero_add, harr_get, hentry]
        set s := U.series.getD i default with hsd
        set n := s.chunks.length with hnd
        have hchks : (applyLoadOne (f i)
            (entrySetTimes s.chunks 0 { lset := s.lset, chks := Slice.make n n })).chks =
            { (setTimes s.chunks 0 (Slice.make n n)) with
              arr := applyLoadChunk (f i) (setTimes s.chunks 0 (Slice.make n n)).len 0
                (setTimes s.chunks 0 (Slice.make n n)).arr } := rfl
        refine ⟨rfl, ?_, ?_⟩
        · show (applyLoadOne (f i)
            (entrySetTimes s.chunks 0 { lset := s.lset, chks := Slice.make n n })).chks.len = n
          rw [hchks]
          show (setTimes s.chunks 0 (Slice.make n n)).len = n
          rw [setTimes_len]
          rfl
        · intro j hj
          have hjn : j < n := hj
          have hjarr : j < (setTimes s.chunks 0 (Slice.make n n)).arr.length := by
            rw [setTimes_arr_length]
            simpa [Slice.make] using hjn
          have hcg : (applyLoadOne (f i)
              (entrySetTimes s.chunks 0 { lset := s.lset, chks := Slice.make n n })).chks.get j =
              (applyLoadChunk (f i) (setTimes s.chunks 0 (Slice.make n n)).len 0
                (setTimes s.chunks 0 (Slice.make n n)).arr).getD j default := by
            rw [hchks]
            rfl
          have hcgD := applyLoadChunk_getD (f i) (setTimes s.chunks 0 (Slice.make n n)).len
            (setTimes s.chunks 0 (Slice.make n n)).arr 0 j hjarr
          have hpos2 : 0 + j < (setTimes s.chunks 0 (Slice.make n n)).len := by
            rw [Nat.zero_add, setTimes_len]
            simpa [Slice.make] using hjn
          rw [if_pos hpos2] at hcgD
          have harr_get2 : (setTimes s.chunks 0 (Slice.make n n)).arr.getD j default =
              (setTimes s.chunks 0 (Slice.make n n)).get j := rfl
          have hsp := setTimes_get_spec s.chunks 0 (Slice.make n n) j hjn
            (by simp [Slice.make])
          simp only [Nat.zero_add] at hsp
          rw [hcg, hcgD, Nat.zero_add, harr_get2, hsp]
          exact ⟨rfl, rfl⟩

/-- A reader that succeeds and loads the byte `0xAA` into every slot. -/
def exampleOkReaders : BucketChunkReaders Unit :=
  { reset := fun r => r, addLoad := fun r _ _ _ _ => .ok r,
    loadBytes := fun _ => .ok (fun _ _ => [170]) }

/-- The loaded entry of the concrete one-series run. -/
def exampleLoadedEntry : seriesEntry :=
  { lset := [("a", "1")],
    chks := { arr := [{ MinTime := 0, MaxTime := 100, Raw := [170] }], len := 1 } }

/-- The state after the concrete successful `Next`. -/
def exampleLoadedState : LoadingState Unit :=
  { upIdx := 1, err := none,
    current :=
      { series := { arr := [exampleLoadedEntry, default, default, default], len := 1 },
        seriesReleasable := true,
        seriesChunksPool := some { slabSize := 1000, allocated := 1 },
        chunksReleaser := true },
    readers := (), pool := [] }

/-- Witness for C1 at a concrete input: one batch with one series and one
chunk reference with time bounds `(0, 100)`. -/
theorem loading_chunk_fidelity_witness :
    exampleLoadedState.current.len = (exampleRefsUpstream.batches.getD 0 default).len ∧
    (exampleLoadedState.current.series.get 0).lset =
      ((exampleRefsUpstream.batches.getD 0 default).series.getD 0 default).lset ∧
    ((exampleLoadedState.current.series.get 0).chks.get 0).MinTime =
      (((exampleRefsUpstream.batches.getD 0 default).series.getD 0
        default).chunks.getD 0 default).minTime := by
  have hx : loadingNext exampleOkReaders exampleRefsUpstream 4 exampleLoadingState =
      (exampleLoadedState, true, [Event.refsReleased]) := rfl
  have h := loading_chunk_fidelity Unit exampleOkReaders exampleRefsUpstream 4
    exampleLoadingState exampleLoadedState [Event.refsReleased] hx
  have h2 := h.2 0 Nat.zero_lt_one
  exact ⟨h.1, h2.1, (h2.2.2 0 Nat.zero_lt_one).1⟩

end StoreGateway
